import Mathlib

/-!
Verification of `levitation.py` (MediaWiki XML dump → git fast-import
converter) against its natural-language specification.

The development shallowly embeds the relevant parts of `src/levitation.py`:

* the mark allocator (`get_mark`, `revision_mark`, `commit_mark`,
  `upload_mark`, lines 75-106);
* the byte-level sidecar file model (`MetaStore`, `StringStore`,
  lines 109-244), with the file as a size plus a byte-valued function,
  Python `struct` packing spelled out as little-endian byte lists;
* UTF-8 encoding/decoding (Python `str.encode`/`bytes.decode`, spelled
  out arithmetically byte by byte);
* `Page.setTitle` (lines 331-340), `Revision.__init__` (lines 272-321),
  `BlobWriter.process_captured_namespace` (lines 611-615),
  `BlobWriter.end_page` / `BlobWriter.parse` (lines 573-640),
  `create_path` (lines 660-709) and `Committer.work` (lines 718-799).

Machine integers are `Nat` with explicit `% 2 ^ w` where overflow or
field widths matter.  Fallible operations return `Option`.
-/

namespace Levitation

/-! ## Little-endian byte encodings (Python `struct` with `=` layout) -/

/-- Little-endian byte list of width `w` for value `v`, i.e. what Python
`struct.pack` produces for an unsigned integer field of `w` bytes. -/
def leBytes : Nat → Nat → List Nat
  | 0, _ => []
  | w + 1, v => v % 256 :: leBytes w (v / 256)

/-- Little-endian decoding of a byte list (inverse of `leBytes`),
i.e. what Python `struct.unpack` computes for an unsigned field. -/
def leDec (bs : List Nat) : Nat :=
  bs.foldr (fun b acc => b + 256 * acc) 0

theorem leBytes_length (w v : Nat) : (leBytes w v).length = w := by
  induction w generalizing v with
  | zero => rfl
  | succ w ih => simp [leBytes, ih]

theorem leDec_leBytes (w v : Nat) : leDec (leBytes w v) = v % 256 ^ w := by
  induction w generalizing v with
  | zero => simp [leBytes, leDec, Nat.mod_one]
  | succ w ih =>
    simp only [leBytes, leDec, List.foldr] at *
    rw [ih, pow_succ', Nat.mod_mul]

/-! ## Random-access files

`open_file` (levitation.py lines 65-72) opens the sidecar read+write
without truncation.  A file is its current byte length plus the byte at
every position; positions at or beyond `size` have never been written.
`fileWrite` models `fh.seek(off); fh.write(bs)`: bytes in the written
extent come from `bs`, bytes between the old end-of-file and the extent
are zero-filled (POSIX gap semantics), other bytes are unchanged.
`fileReadExtent` models `fh.seek(off); fh.read(n)` followed by the
`len(data) < n` check both stores perform: it returns the `n` bytes
only when they lie entirely within the file. -/

structure File where
  size : Nat
  data : Nat → Nat

/-- The empty file fresh from `open_file` on a nonexistent path. -/
def emptyFile : File := ⟨0, fun _ => 0⟩

def fileWrite (f : File) (off : Nat) (bs : List Nat) : File where
  size := max f.size (off + bs.length)
  data := fun a =>
    if off ≤ a ∧ a < off + bs.length then bs.getD (a - off) 0
    else if a < f.size then f.data a
    else 0

def fileReadExtent (f : File) (off n : Nat) : Option (List Nat) :=
  if off + n ≤ f.size then some ((List.range n).map fun k => f.data (off + k))
  else none

theorem fileReadExtent_write_self (f : File) (off : Nat) (bs : List Nat) :
    fileReadExtent (fileWrite f off bs) off bs.length = some bs := by
  unfold fileReadExtent fileWrite
  rw [if_pos (by simp [Nat.le_max_right])]
  refine congrArg some (List.ext_getElem (by simp) fun i h1 h2 => ?_)
  simp only [List.getElem_map, List.getElem_range]
  have hi : i < bs.length := by simpa using h2
  rw [if_pos ⟨Nat.le_add_right _ _, by omega⟩]
  simp [List.getD_eq_getElem?_getD, List.getElem?_eq_getElem hi]

/-- Bytes of an extent disjoint from the written one and inside the old
file are untouched by `fileWrite`. -/
theorem fileWrite_data_untouched (f : File) (off : Nat) (bs : List Nat)
    (a : Nat) (ha : a < f.size) (hd : a < off ∨ off + bs.length ≤ a) :
    (fileWrite f off bs).data a = f.data a := by
  unfold fileWrite
  simp only
  rw [if_neg (by omega), if_pos ha]

/-- Bytes beyond the old end-of-file and outside the written extent read
as zero after a `fileWrite` (gap fill / beyond end-of-file). -/
theorem fileWrite_data_zero (f : File) (off : Nat) (bs : List Nat)
    (a : Nat) (ha : f.size ≤ a) (hd : a < off ∨ off + bs.length ≤ a) :
    (fileWrite f off bs).data a = 0 := by
  unfold fileWrite
  simp only
  rw [if_neg (by omega), if_neg (by omega)]

/-! ## The mark allocator (levitation.py lines 75-106) -/

/-- `get_mark(ns, num)`: distinct mark sequences per 'mark namespace'. -/
def get_mark (ns num : Nat) : Nat := 1 + ns + 3 * num

def revision_mark (revision_id : Nat) : Nat := get_mark 0 revision_id

def commit_mark (commit_number : Nat) : Nat := get_mark 1 commit_number

def upload_mark (upload_number : Nat) : Nat := get_mark 2 upload_number

/-! ## UTF-8

The source calls Python's `str.encode('UTF-8')` / `bytes.decode('UTF-8')`
(levitation.py `ENCODING`, line 23).  We spell UTF-8 out arithmetically,
byte by byte; `utf8Decode` returns `none` where `bytes.decode` would
raise `UnicodeDecodeError`. -/

/-- UTF-8 bytes of one Unicode scalar value. -/
def utf8Bytes (c : Char) : List Nat :=
  if c.toNat < 128 then [c.toNat]
  else if c.toNat < 2048 then [192 + c.toNat / 64, 128 + c.toNat % 64]
  else if c.toNat < 65536 then
    [224 + c.toNat / 4096, 128 + c.toNat / 64 % 64, 128 + c.toNat % 64]
  else
    [240 + c.toNat / 262144, 128 + c.toNat / 4096 % 64,
     128 + c.toNat / 64 % 64, 128 + c.toNat % 64]

/-- UTF-8 encoding of a string (Python `bytes(text, 'UTF-8')`). -/
def utf8Encode (s : List Char) : List Nat := (s.map utf8Bytes).flatten

/-- Byte length of the UTF-8 encoding (Python `len(bytes(text, 'UTF-8'))`). -/
def utf8Len (s : List Char) : Nat := (utf8Encode s).length

/-- Is `b` a UTF-8 continuation byte `10xxxxxx`? -/
def contByte (b : Nat) : Bool := 128 ≤ b && b < 192

/-- Decode one UTF-8 scalar from the head of a byte stream, giving the
code point and the remaining bytes; `none` on an invalid head (lone or
missing continuation byte, overlong lead ≥ `0xF8`, empty input). -/
def decodeOne : List Nat → Option (Nat × List Nat)
  | [] => none
  | b :: bs =>
    if b < 128 then some (b, bs)
    else if b < 192 then none
    else if b < 224 then
      match bs with
      | b1 :: bs1 =>
        if contByte b1 then some ((b - 192) * 64 + (b1 - 128), bs1) else none
      | [] => none
    else if b < 240 then
      match bs with
      | b1 :: b2 :: bs2 =>
        if contByte b1 && contByte b2 then
          some ((b - 224) * 4096 + (b1 - 128) * 64 + (b2 - 128), bs2)
        else none
      | _ => none
    else if b < 248 then
      match bs with
      | b1 :: b2 :: b3 :: bs3 =>
        if contByte b1 && contByte b2 && contByte b3 then
          some ((b - 240) * 262144 + (b1 - 128) * 4096 + (b2 - 128) * 64 + (b3 - 128), bs3)
        else none
      | _ => none
    else none

theorem decodeOne_length (l : List Nat) (n : Nat) (rest : List Nat)
    (h : decodeOne l = some (n, rest)) : rest.length < l.length := by
  cases l with
  | nil => simp [decodeOne] at h
  | cons b bs =>
    simp only [decodeOne] at h
    repeat' split at h
    all_goals simp_all
    all_goals omega

/-- UTF-8 decoding (Python `data.decode('UTF-8')`); `none` models a
`UnicodeDecodeError`, in particular on a split multibyte sequence. -/
def utf8Decode (l : List Nat) : Option (List Char) :=
  match l with
  | [] => some []
  | b :: bs =>
    match h : decodeOne (b :: bs) with
    | some (n, rest) => (utf8Decode rest).map (fun cs => Char.ofNat n :: cs)
    | none => none
termination_by l.length
decreasing_by exact decodeOne_length _ _ _ h

theorem char_toNat_lt (c : Char) : c.toNat < 1114112 := by
  rcases c.valid with h | h
  · exact Nat.lt_trans h (by norm_num)
  · exact h.2

theorem utf8Bytes_length_pos (c : Char) : 1 ≤ (utf8Bytes c).length := by
  unfold utf8Bytes
  split
  · simp
  · split
    · simp
    · split <;> simp

theorem utf8Encode_nil : utf8Encode [] = [] := rfl

theorem utf8Encode_cons (c : Char) (s : List Char) :
    utf8Encode (c :: s) = utf8Bytes c ++ utf8Encode s := by
  simp [utf8Encode]

theorem utf8Encode_append (s t : List Char) :
    utf8Encode (s ++ t) = utf8Encode s ++ utf8Encode t := by
  simp [utf8Encode]

theorem length_le_utf8Len (s : List Char) : s.length ≤ utf8Len s := by
  induction s with
  | nil => simp [utf8Len]
  | cons c s ih =>
    have := utf8Bytes_length_pos c
    simp only [utf8Len, utf8Encode_cons, List.length_append, List.length_cons]
    simp only [utf8Len] at ih
    omega

/-- `decodeOne` inverts `utf8Bytes` at the head of a byte stream. -/
theorem decodeOne_utf8Bytes (c : Char) (rest : List Nat) :
    decodeOne (utf8Bytes c ++ rest) = some (c.toNat, rest) := by
  have hval : c.toNat < 1114112 := char_toNat_lt c
  unfold utf8Bytes
  split
  · next h1 =>
    simp only [List.cons_append, List.nil_append, decodeOne]
    rw [if_pos h1]
  · next h1 =>
    split
    · next h2 =>
      simp only [List.cons_append, List.nil_append, decodeOne]
      rw [if_neg (by omega), if_neg (by omega), if_pos (by omega)]
      rw [if_pos (by simp [contByte]; omega)]
      simp only [Option.some.injEq, Prod.mk.injEq]
      exact ⟨by omega, trivial⟩
    · next h2 =>
      split
      · next h3 =>
        simp only [List.cons_append, List.nil_append, decodeOne]
        rw [if_neg (by omega), if_neg (by omega), if_neg (by omega), if_pos (by omega)]
        rw [if_pos (by simp [contByte]; omega)]
        simp only [Option.some.injEq, Prod.mk.injEq]
        exact ⟨by omega, trivial⟩
      · next h3 =>
        simp only [List.cons_append, List.nil_append, decodeOne]
        rw [if_neg (by omega), if_neg (by omega), if_neg (by omega), if_neg (by omega),
          if_pos (by omega)]
        rw [if_pos (by simp [contByte]; omega)]
        simp only [Option.some.injEq, Prod.mk.injEq]
        exact ⟨by omega, trivial⟩

/-- Decoding the encoding of one scalar at the head of a byte stream
peels off exactly that scalar. -/
theorem utf8Decode_bytes_cons (c : Char) (rest : List Nat) :
    utf8Decode (utf8Bytes c ++ rest) = (utf8Decode rest).map (fun cs => c :: cs) := by
  have hofn : Char.ofNat c.toNat = c := Char.ofNat_toNat c
  have h1 : decodeOne (utf8Bytes c ++ rest) = some (c.toNat, rest) :=
    decodeOne_utf8Bytes c rest
  cases hb : utf8Bytes c with
  | nil =>
    have := utf8Bytes_length_pos c
    rw [hb] at this
    simp at this
  | cons x xs =>
    rw [hb] at h1
    simp only [List.cons_append] at h1 ⊢
    rw [utf8Decode]
    split
    · next n r heq =>
      rw [h1] at heq
      obtain ⟨rfl, rfl⟩ : n = c.toNat ∧ r = rest := by
        simpa using heq.symm
      rw [hofn]
    · next heq =>
      rw [h1] at heq
      simp at heq

/-- Round trip: decoding an encoded string gives the string back. -/
theorem utf8Decode_utf8Encode (s : List Char) : utf8Decode (utf8Encode s) = some s := by
  induction s with
  | nil => rw [utf8Encode_nil, utf8Decode]
  | cons c s ih =>
    rw [utf8Encode_cons, utf8Decode_bytes_cons, ih]
    rfl

theorem utf8Len_append (s t : List Char) : utf8Len (s ++ t) = utf8Len s + utf8Len t := by
  simp [utf8Len, utf8Encode_append]

theorem utf8Len_take_le (l : List Char) (j : Nat) : utf8Len (l.take j) ≤ utf8Len l := by
  conv_rhs => rw [← List.take_append_drop j l]
  rw [utf8Len_append]
  omega

theorem utf8Len_take_mono (s : List Char) {j k : Nat} (h : j ≤ k) :
    utf8Len (s.take j) ≤ utf8Len (s.take k) := by
  have h1 : s.take j = (s.take k).take j := by
    rw [List.take_take]
    congr 1
    omega
  rw [h1]
  exact utf8Len_take_le _ _

/-! ## Python `struct` formats

The two stores pack their records with `struct.Struct('=LLLQQB')`
(MetaStore, line 116) and `struct.Struct('=BI255s')` (StringStore, line
204).  With `=` (standard sizes, no alignment) `L` and `I` are 4 bytes,
`Q` is 8, `B` is 1 and `255s` is 255. -/

inductive StructField
  | L
  | I
  | Q
  | B
  | S (n : Nat)
deriving DecidableEq, Repr

def StructField.size : StructField → Nat
  | .L => 4
  | .I => 4
  | .Q => 8
  | .B => 1
  | .S n => n

def structSize (fs : List StructField) : Nat := (fs.map StructField.size).sum

/-- `'=LLLQQB'` (line 116). -/
def metaStructFmt : List StructField := [.L, .L, .L, .Q, .Q, .B]

def metaStructSize : Nat := structSize metaStructFmt

/-- `'=BI255s'` (line 204). -/
def stringStructFmt : List StructField := [.B, .I, .S 255]

def stringStructSize : Nat := structSize stringStructFmt

/-! ## StringStore (levitation.py lines 192-244) -/

/-- The `while` loop of `StringStore.write` (lines 217-219): while the
current encoding `ba` is over 255 bytes long, set `ba` to the encoding
of the current `text` and then drop the last code point of `text`.
Both are carried as code-point lists; the byte string `ba` of the source
is `utf8Encode` of the first argument. -/
def trimLoop (ba text : List Char) : List Char :=
  if utf8Len ba ≤ 255 then ba
  else
    match text with
    | [] => []
    | x :: xs => trimLoop (x :: xs) (x :: xs).dropLast
termination_by text.length
decreasing_by simp [List.length_dropLast]

/-- The trimming performed by `StringStore.write` (lines 210-219):
encode the text; if the encoding exceeds 255 bytes, cut the text to its
first 255 code points and run the loop.  Returns the code points whose
encoding is the final `ba` that gets packed. -/
def writeTrim (text : List Char) : List Char :=
  if utf8Len text ≤ 255 then text
  else trimLoop text (text.take 255)

/-- `255s` packing: the byte string, zero-padded (and cut) to 255 bytes. -/
def pad255 (bs : List Nat) : List Nat :=
  bs.take 255 ++ List.replicate (255 - bs.length) 0

/-- `struct.pack('=BI255s', lenba, flags, ba)` (line 221).  All call
sites have `lenba ≤ 255`; the `% 256` makes the `B` field total. -/
def stringPack (lenba flags : Nat) (ba : List Nat) : List Nat :=
  lenba % 256 :: (leBytes 4 flags ++ pad255 ba)

/-- `StringStore.write` (lines 209-226): trim, pack, seek to
`id * struct.size`, write.  (The in-memory `maxid` update is not
modelled; it does not touch the file.) -/
def StringStore.write (f : File) (id : Nat) (text : List Char) (flags : Nat) : File :=
  fileWrite f (id * stringStructSize)
    (stringPack (utf8Encode (writeTrim text)).length flags (utf8Encode (writeTrim text)))

/-- The dict returned by `StringStore.read`; `text` is `none` where
Python's `.decode` would raise. -/
structure StrRec where
  len : Nat
  flags : Nat
  text : Option (List Char)
deriving DecidableEq, Repr

/-- `StringStore.read` (lines 228-244): seek to `id * struct.size`,
read one record; a short read yields the empty dict, otherwise unpack
and decode the first `len` bytes of the 255-byte text field. -/
def StringStore.read (f : File) (id : Nat) : StrRec :=
  match fileReadExtent f (id * stringStructSize) stringStructSize with
  | none => ⟨0, 0, some []⟩
  | some bs =>
    ⟨bs.headD 0, leDec ((bs.drop 1).take 4),
     utf8Decode (((bs.drop 5).take 255).take (bs.headD 0))⟩

theorem pad255_length (bs : List Nat) : (pad255 bs).length = 255 := by
  simp [pad255]
  omega

theorem stringPack_length (lenba flags : Nat) (ba : List Nat) :
    (stringPack lenba flags ba).length = stringStructSize := by
  simp [stringPack, leBytes_length, pad255_length, stringStructSize, structSize,
    stringStructFmt, StructField.size]

/-- The largest `j ≤ bound` such that the first `j` code points of `s`
encode into at most 255 bytes. -/
def bestK (s : List Char) : Nat → Nat
  | 0 => 0
  | t + 1 => if utf8Len (s.take (t + 1)) ≤ 255 then t + 1 else bestK s t

theorem bestK_le (s : List Char) (m : Nat) : bestK s m ≤ m := by
  induction m with
  | zero => simp [bestK]
  | succ t ih =>
    rw [bestK]
    split
    · exact Nat.le_refl _
    · exact Nat.le_trans ih (Nat.le_succ _)

theorem utf8Len_take_bestK (s : List Char) (m : Nat) :
    utf8Len (s.take (bestK s m)) ≤ 255 := by
  induction m with
  | zero => simp [bestK, utf8Len, utf8Encode]
  | succ t ih =>
    rw [bestK]
    split
    · assumption
    · exact ih

theorem bestK_max (s : List Char) (m : Nat) :
    ∀ j, j ≤ m → utf8Len (s.take j) ≤ 255 → j ≤ bestK s m := by
  induction m with
  | zero => intro j hj _; simpa [bestK] using hj
  | succ t ih =>
    intro j hj hs
    rw [bestK]
    split
    · exact hj
    · next hc =>
      have hjt : j ≤ t := by
        rcases Nat.eq_or_lt_of_le hj with h | h
        · exact absurd (h ▸ hs) hc
        · omega
      exact ih j hjt hs

theorem take_succ_dropLast (s : List Char) (t : Nat) (h : t + 1 ≤ s.length) :
    (s.take (t + 1)).dropLast = s.take t := by
  rw [List.dropLast_eq_take, List.length_take, List.take_take]
  congr 1
  omega

/-- The loop of `StringStore.write`, started in the shape it always has
after its first iteration, computes the longest fitting head. -/
theorem trimLoop_take (s : List Char) :
    ∀ t, t ≤ s.length → trimLoop (s.take (t + 1)) (s.take t) = s.take (bestK s (t + 1)) := by
  intro t
  induction t with
  | zero =>
    intro _
    rw [trimLoop.eq_def]
    simp only [List.take_zero]
    split
    · next hle => rw [bestK, if_pos hle]
    · next hgt =>
      rw [bestK, if_neg hgt, bestK, List.take_zero]
  | succ t ih =>
    intro ht
    rw [trimLoop.eq_def]
    split
    · next hle => rw [bestK, if_pos hle]
    · next hgt =>
      rw [bestK, if_neg hgt]
      have hne : s.take (t + 1) ≠ [] := by
        have : (s.take (t + 1)).length = t + 1 := by
          rw [List.length_take]
          omega
        intro hnil
        rw [hnil] at this
        simp at this
      cases hc : s.take (t + 1) with
      | nil => exact absurd hc hne
      | cons x xs =>
        show trimLoop (x :: xs) (x :: xs).dropLast = s.take (bestK s (t + 1))
        have hdl : (x :: xs).dropLast = s.take t := by
          rw [← hc]
          exact take_succ_dropLast s t (by omega)
        rw [hdl, ← hc]
        exact ih (by omega)

theorem utf8Len_nil : utf8Len [] = 0 := rfl

/-- Characterization of the write-side trimming: it keeps exactly the
longest head of the text whose UTF-8 encoding fits in 255 bytes. -/
theorem writeTrim_spec (s : List Char) :
    ∃ k, k ≤ s.length ∧ writeTrim s = s.take k ∧ utf8Len (s.take k) ≤ 255 ∧
      ∀ j, j ≤ s.length → utf8Len (s.take j) ≤ 255 → j ≤ k := by
  by_cases h : utf8Len s ≤ 255
  · refine ⟨s.length, Nat.le_refl _, ?_, ?_, fun j hj _ => hj⟩
    · rw [writeTrim, if_pos h, List.take_length]
    · rw [List.take_length]
      exact h
  · have hone : ∀ t, 1 ≤ t → t ≤ s.length → trimLoop s (s.take t) = s.take (bestK s t) := by
      intro t h1 ht
      rw [trimLoop.eq_def, if_neg h]
      have hlen : (s.take t).length = t := by
        rw [List.length_take]
        omega
      cases hc : s.take t with
      | nil =>
        rw [hc] at hlen
        simp at hlen
        omega
      | cons x xs =>
        show trimLoop (x :: xs) (x :: xs).dropLast = s.take (bestK s t)
        obtain ⟨u, rfl⟩ : ∃ u, t = u + 1 := ⟨t - 1, by omega⟩
        have hdl : (x :: xs).dropLast = s.take u := by
          rw [← hc]
          exact take_succ_dropLast s u (by omega)
        rw [hdl, ← hc]
        exact trimLoop_take s u (by omega)
    rw [writeTrim, if_neg h]
    have hpos : 1 ≤ s.length := by
      rcases Nat.eq_zero_or_pos s.length with h0 | h1
      · exfalso
        rw [List.length_eq_zero] at h0
        rw [h0, utf8Len_nil] at h
        omega
      · exact h1
    by_cases hl : s.length ≤ 255
    · have hre : s.take 255 = s.take s.length := by
        rw [List.take_of_length_le hl, List.take_length]
      refine ⟨bestK s s.length, bestK_le s _, ?_, utf8Len_take_bestK s _, bestK_max s s.length⟩
      rw [hre]
      exact hone s.length hpos (Nat.le_refl _)
    · refine ⟨bestK s 255, Nat.le_trans (bestK_le s 255) (by omega), ?_,
        utf8Len_take_bestK s _, ?_⟩
      · exact hone 255 (by omega) (by omega)
      · intro j hj hsj
        by_cases hj255 : j ≤ 255
        · exact bestK_max s 255 j hj255 hsj
        · exfalso
          have hlen : (s.take j).length = j := by
            rw [List.length_take]
            omega
          have := length_le_utf8Len (s.take j)
          rw [hlen] at this
          omega

theorem utf8Len_writeTrim_le (s : List Char) : utf8Len (writeTrim s) ≤ 255 := by
  obtain ⟨k, _, heq, hle, _⟩ := writeTrim_spec s
  rw [heq]
  exact hle

/-- Unfolding `StringStore.read` when the extent is present. -/
theorem stringRead_of_extent (f : File) (id : Nat) (bs : List Nat)
    (h : fileReadExtent f (id * stringStructSize) stringStructSize = some bs) :
    StringStore.read f id = ⟨bs.headD 0, leDec ((bs.drop 1).take 4),
      utf8Decode (((bs.drop 5).take 255).take (bs.headD 0))⟩ := by
  rw [StringStore.read.eq_def, h]

/-- Reading back a just-written `StringStore` slot: the stored length is
the byte length of the trimmed text, and the text field decodes to
exactly the trimmed text. -/
theorem stringRead_write (f : File) (id flags : Nat) (text : List Char) :
    StringStore.read (StringStore.write f id text flags) id =
      ⟨utf8Len (writeTrim text), flags % 4294967296, some (writeTrim text)⟩ := by
  have hlen : (utf8Encode (writeTrim text)).length ≤ 255 := utf8Len_writeTrim_le text
  have hb := fileReadExtent_write_self f (id * stringStructSize)
    (stringPack (utf8Encode (writeTrim text)).length flags (utf8Encode (writeTrim text)))
  rw [stringPack_length] at hb
  rw [StringStore.write, stringRead_of_extent _ _ _ hb]
  have hpad : pad255 (utf8Encode (writeTrim text)) =
      utf8Encode (writeTrim text) ++ List.replicate (255 - (utf8Encode (writeTrim text)).length) 0 := by
    rw [pad255, List.take_of_length_le hlen]
  have hhead : (stringPack (utf8Encode (writeTrim text)).length flags
      (utf8Encode (writeTrim text))).headD 0 = (utf8Encode (writeTrim text)).length := by
    rw [stringPack]
    simp only [List.headD_cons]
    omega
  have hdrop1 : (stringPack (utf8Encode (writeTrim text)).length flags
      (utf8Encode (writeTrim text))).drop 1 = leBytes 4 flags ++ pad255 (utf8Encode (writeTrim text)) := by
    rw [stringPack]
    rfl
  have hdrop5 : (stringPack (utf8Encode (writeTrim text)).length flags
      (utf8Encode (writeTrim text))).drop 5 = pad255 (utf8Encode (writeTrim text)) := by
    rw [stringPack]
    show (leBytes 4 flags ++ pad255 (utf8Encode (writeTrim text))).drop 4 = _
    exact List.drop_left' (leBytes_length 4 flags)
  congr 1
  · rw [hdrop1, List.take_left' (leBytes_length 4 flags), leDec_leBytes]
    norm_num
  · rw [hdrop5, hhead, hpad]
    have h255 : (utf8Encode (writeTrim text) ++
        List.replicate (255 - (utf8Encode (writeTrim text)).length) 0).take 255 =
        utf8Encode (writeTrim text) ++
        List.replicate (255 - (utf8Encode (writeTrim text)).length) 0 := by
      apply List.take_of_length_le
      simp
      omega
    rw [h255]
    have hba : (utf8Encode (writeTrim text) ++
        List.replicate (255 - (utf8Encode (writeTrim text)).length) 0).take
        (utf8Encode (writeTrim text)).length = utf8Encode (writeTrim text) :=
      List.take_left _ _
    rw [hba, utf8Decode_utf8Encode]

/-- **C2.** StringStore round-trip: for every Unicode string `S` (as a
list of scalar values) and every id `I`, after `write(I, S)` a `read(I)`
returns a text field equal to `S` truncated to the largest head whose
UTF-8 encoding is at most 255 bytes — whole code points only, so no
multibyte sequence is split — and the stored `len` field equals that
head's byte length. -/
theorem C2_string_store_round_trip (f : File) (id flags : Nat) (s : List Char) :
    ∃ k, k ≤ s.length ∧
      (StringStore.read (StringStore.write f id s flags) id).text = some (s.take k) ∧
      (StringStore.read (StringStore.write f id s flags) id).len = utf8Len (s.take k) ∧
      utf8Len (s.take k) ≤ 255 ∧
      (∀ j, j ≤ s.length → utf8Len (s.take j) ≤ 255 → j ≤ k) := by
  obtain ⟨k, hk, heq, hle, hmax⟩ := writeTrim_spec s
  refine ⟨k, hk, ?_, ?_, hle, hmax⟩
  · rw [stringRead_write, ← heq]
  · rw [stringRead_write, ← heq]

/-- Witness for C2 at a concrete input. -/
theorem C2_string_store_round_trip_witness :
    ∃ k, k ≤ [Char.ofNat 97, Char.ofNat 233].length ∧
      (StringStore.read (StringStore.write emptyFile 3 [Char.ofNat 97, Char.ofNat 233] 1) 3).text
        = some ([Char.ofNat 97, Char.ofNat 233].take k) ∧
      (StringStore.read (StringStore.write emptyFile 3 [Char.ofNat 97, Char.ofNat 233] 1) 3).len
        = utf8Len ([Char.ofNat 97, Char.ofNat 233].take k) ∧
      utf8Len ([Char.ofNat 97, Char.ofNat 233].take k) ≤ 255 ∧
      (∀ j, j ≤ [Char.ofNat 97, Char.ofNat 233].length →
        utf8Len ([Char.ofNat 97, Char.ofNat 233].take j) ≤ 255 → j ≤ k) :=
  C2_string_store_round_trip emptyFile 3 1 [Char.ofNat 97, Char.ofNat 233]

/-- **C1.** The three mark functions are pairwise disjoint and each
injective: for all non-negative `R`, `U`, `C`, the revision-blob mark
`1+3R`, the upload-blob mark `3+3U` and the commit mark `2+3C` never
coincide — they occupy distinct residues mod 3 — so every source id maps
to a distinct fast-import mark.  (Injectivity is stated as an `↔` so the
theorem is hypothesis-free.) -/
theorem C1_mark_injectivity (R U C R' U' C' : Nat) :
    revision_mark R = 1 + 3 * R ∧ upload_mark U = 3 + 3 * U ∧ commit_mark C = 2 + 3 * C ∧
    revision_mark R % 3 = 1 ∧ upload_mark U % 3 = 0 ∧ commit_mark C % 3 = 2 ∧
    revision_mark R ≠ upload_mark U ∧ revision_mark R ≠ commit_mark C ∧
    upload_mark U ≠ commit_mark C ∧
    (revision_mark R = revision_mark R' ↔ R = R') ∧
    (upload_mark U = upload_mark U' ↔ U = U') ∧
    (commit_mark C = commit_mark C' ↔ C = C') := by
  unfold revision_mark upload_mark commit_mark get_mark
  omega

/-! ## MetaStore (levitation.py lines 109-189) -/

theorem metaStructSize_eq : metaStructSize = 29 := rfl

theorem stringStructSize_eq : stringStructSize = 260 := rfl

/-- `(hi <<< w) ||| lo` recombines disjoint halves additively. -/
theorem shiftLeft_lor_eq_add (w hi lo : Nat) (h : lo < 2 ^ w) :
    (hi <<< w) ||| lo = 2 ^ w * hi + lo := by
  apply Nat.eq_of_testBit_eq
  intro k
  rw [Nat.testBit_lor, Nat.testBit_shiftLeft, Nat.testBit_mul_pow_two_add _ h]
  by_cases hk : k < w
  · have hlt : ¬ (k ≥ w) := by omega
    simp [hk, hlt]
  · have hge : k ≥ w := by omega
    have hlo : Nat.testBit lo k = false :=
      Nat.testBit_lt_two_pow (Nat.lt_of_lt_of_le h (Nat.pow_le_pow_right (by norm_num) (by omega)))
    simp [hk, hge, hlo]

/-- `struct.pack('=LLLQQB', rev, epoch, page, hi, lo, flags)` (lines
134-141) with `hi = (author.id >> 64) & MAX_INT64` and
`lo = author.id & MAX_INT64`, the shift and mask spelled `/ 2 ^ 64` and
`% 2 ^ 64` on `Nat`; the `B` field is `% 256` total. -/
def metaPack (rev epoch page authorId flags : Nat) : List Nat :=
  leBytes 4 rev ++ leBytes 4 epoch ++ leBytes 4 page ++
  leBytes 8 (authorId / 18446744073709551616 % 18446744073709551616) ++
  leBytes 8 (authorId % 18446744073709551616) ++ [flags % 256]

/-- `MetaStore.write` (lines 120-144): build the flags byte (minor=1,
isip=2, isdel=4, upload=8), pack, seek to `rev * struct.size`, write.
`epoch` enters as `timegm(time.utctimetuple())`; the author enters as
its 128-bit id plus its `isip` / `isdel` booleans. -/
def MetaStore.write (f : File) (rev epoch page authorId : Nat)
    (isip isdel minor upload : Bool) : File :=
  fileWrite f (rev * metaStructSize)
    (metaPack rev epoch page authorId
      ((if minor then 1 else 0) + (if isip then 2 else 0) +
       (if isdel then 4 else 0) + (if upload then 8 else 0)))

/-- The dict built by `MetaStore.read` (lines 146-189).  `user` is kept
as the raw 128-bit integer `(data[3] << 64) | data[4]`; the derived
entries `time` and `day` and the IP stringification of `user` when
`isip` holds are pure functions of `epoch`, `user` and `isip`, so they
are determined by the fields kept here and are not modelled separately.
`exists'` is the dict's `exists` entry (`rev != 0`, lines 168-171). -/
structure MetaRec where
  rev : Nat
  epoch : Nat
  page : Nat
  user : Nat
  minor : Bool
  isip : Bool
  isdel : Bool
  upload : Bool
  exists' : Bool
deriving DecidableEq, Repr

/-- `MetaStore.read` (lines 146-189): seek to `rev * struct.size`, read
one record, `none` on a short read, else unpack; `flags & (1 << k)` is
spelled `flags / 2 ^ k % 2`. -/
def MetaStore.read (f : File) (rev : Nat) : Option MetaRec :=
  match fileReadExtent f (rev * metaStructSize) metaStructSize with
  | none => none
  | some bs =>
    some { rev := leDec (bs.take 4)
           epoch := leDec ((bs.drop 4).take 4)
           page := leDec ((bs.drop 8).take 4)
           user := (leDec ((bs.drop 12).take 8) <<< 64) ||| leDec ((bs.drop 20).take 8)
           minor := (bs.drop 28).headD 0 % 2 == 1
           isip := (bs.drop 28).headD 0 / 2 % 2 == 1
           isdel := (bs.drop 28).headD 0 / 4 % 2 == 1
           upload := (bs.drop 28).headD 0 / 8 % 2 == 1
           exists' := leDec (bs.take 4) != 0 }

theorem metaPack_length (rev epoch page authorId flags : Nat) :
    (metaPack rev epoch page authorId flags).length = metaStructSize := by
  simp [metaPack, leBytes_length, metaStructSize, structSize, metaStructFmt, StructField.size]

/-- Unfolding `MetaStore.read` when the extent is present. -/
theorem metaRead_of_extent (f : File) (rev : Nat) (bs : List Nat)
    (h : fileReadExtent f (rev * metaStructSize) metaStructSize = some bs) :
    MetaStore.read f rev =
      some { rev := leDec (bs.take 4)
             epoch := leDec ((bs.drop 4).take 4)
             page := leDec ((bs.drop 8).take 4)
             user := (leDec ((bs.drop 12).take 8) <<< 64) ||| leDec ((bs.drop 20).take 8)
             minor := (bs.drop 28).headD 0 % 2 == 1
             isip := (bs.drop 28).headD 0 / 2 % 2 == 1
             isdel := (bs.drop 28).headD 0 / 4 % 2 == 1
             upload := (bs.drop 28).headD 0 / 8 % 2 == 1
             exists' := leDec (bs.take 4) != 0 } := by
  rw [MetaStore.read.eq_def, h]

theorem flags_byte_bits (minor isip isdel upload : Bool) :
    (((if minor then 1 else 0) + (if isip then 2 else 0) + (if isdel then 4 else 0) +
        (if upload then 8 else 0)) % 256 % 2 == 1) = minor ∧
    (((if minor then 1 else 0) + (if isip then 2 else 0) + (if isdel then 4 else 0) +
        (if upload then 8 else 0)) % 256 / 2 % 2 == 1) = isip ∧
    (((if minor then 1 else 0) + (if isip then 2 else 0) + (if isdel then 4 else 0) +
        (if upload then 8 else 0)) % 256 / 4 % 2 == 1) = isdel ∧
    (((if minor then 1 else 0) + (if isip then 2 else 0) + (if isdel then 4 else 0) +
        (if upload then 8 else 0)) % 256 / 8 % 2 == 1) = upload := by
  cases minor <;> cases isip <;> cases isdel <;> cases upload <;> decide

/-- The packed meta record, re-associated to the right. -/
theorem metaPack_assoc (rev epoch page authorId flags : Nat) :
    metaPack rev epoch page authorId flags =
      leBytes 4 rev ++ (leBytes 4 epoch ++ (leBytes 4 page ++
        (leBytes 8 (authorId / 18446744073709551616 % 18446744073709551616) ++
          (leBytes 8 (authorId % 18446744073709551616) ++ [flags % 256])))) := by
  simp [metaPack, List.append_assoc]

/-- Reading back a just-written `MetaStore` slot recovers every field;
the `exists` entry is `rev != 0`. -/
theorem metaRead_write (f : File) (rev epoch page authorId : Nat)
    (isip isdel minor upload : Bool)
    (hrev : rev < 4294967296) (hepoch : epoch < 4294967296)
    (hpage : page < 4294967296)
    (hauthor : authorId < 340282366920938463463374607431768211456) :
    MetaStore.read (MetaStore.write f rev epoch page authorId isip isdel minor upload) rev =
      some { rev := rev, epoch := epoch, page := page, user := authorId,
             minor := minor, isip := isip, isdel := isdel, upload := upload,
             exists' := rev != 0 } := by
  have hb := fileReadExtent_write_self f (rev * metaStructSize)
    (metaPack rev epoch page authorId
      ((if minor then 1 else 0) + (if isip then 2 else 0) +
       (if isdel then 4 else 0) + (if upload then 8 else 0)))
  rw [metaPack_length] at hb
  rw [MetaStore.write, metaRead_of_extent _ _ _ hb]
  rw [metaPack_assoc]
  have h4r := leBytes_length 4 rev
  have h4e := leBytes_length 4 epoch
  have h4p := leBytes_length 4 page
  have h8h := leBytes_length 8 (authorId / 18446744073709551616 % 18446744073709551616)
  have h8l := leBytes_length 8 (authorId % 18446744073709551616)
  set flags := (if minor then (1 : Nat) else 0) + (if isip then 2 else 0) +
    (if isdel then 4 else 0) + (if upload then 8 else 0) with hflags
  set bs := leBytes 4 rev ++ (leBytes 4 epoch ++ (leBytes 4 page ++
    (leBytes 8 (authorId / 18446744073709551616 % 18446744073709551616) ++
      (leBytes 8 (authorId % 18446744073709551616) ++ [flags % 256])))) with hbs
  have htake4 : bs.take 4 = leBytes 4 rev := by
    rw [hbs]
    exact List.take_left' h4r
  have hdrop4 : bs.drop 4 = leBytes 4 epoch ++ (leBytes 4 page ++
      (leBytes 8 (authorId / 18446744073709551616 % 18446744073709551616) ++
        (leBytes 8 (authorId % 18446744073709551616) ++ [flags % 256]))) := by
    rw [hbs]
    exact List.drop_left' h4r
  have hdrop8 : bs.drop 8 = leBytes 4 page ++
      (leBytes 8 (authorId / 18446744073709551616 % 18446744073709551616) ++
        (leBytes 8 (authorId % 18446744073709551616) ++ [flags % 256])) := by
    have : (8 : Nat) = 4 + 4 := by norm_num
    rw [this, ← List.drop_drop, hdrop4]
    exact List.drop_left' h4e
  have hdrop12 : bs.drop 12 =
      leBytes 8 (authorId / 18446744073709551616 % 18446744073709551616) ++
        (leBytes 8 (authorId % 18446744073709551616) ++ [flags % 256]) := by
    have h12 : (12 : Nat) = 8 + 4 := by norm_num
    rw [h12, ← List.drop_drop, hdrop8]
    exact List.drop_left' h4p
  have hdrop20 : bs.drop 20 = leBytes 8 (authorId % 18446744073709551616) ++ [flags % 256] := by
    have h20 : (20 : Nat) = 12 + 8 := by norm_num
    rw [h20, ← List.drop_drop, hdrop12]
    exact List.drop_left' h8h
  have hdrop28 : bs.drop 28 = [flags % 256] := by
    have h28 : (28 : Nat) = 20 + 8 := by norm_num
    rw [h28, ← List.drop_drop, hdrop20]
    exact List.drop_left' h8l
  have hrevf : leDec (bs.take 4) = rev := by
    rw [htake4, leDec_leBytes]
    norm_num
    omega
  obtain ⟨hbit1, hbit2, hbit3, hbit4⟩ := flags_byte_bits minor isip isdel upload
  have e_epoch : leDec ((bs.drop 4).take 4) = epoch := by
    rw [hdrop4, List.take_left' h4e, leDec_leBytes]
    norm_num
    omega
  have e_page : leDec ((bs.drop 8).take 4) = page := by
    rw [hdrop8, List.take_left' h4p, leDec_leBytes]
    norm_num
    omega
  have e_user : (leDec ((bs.drop 12).take 8) <<< 64) ||| leDec ((bs.drop 20).take 8) =
      authorId := by
    rw [hdrop12, List.take_left' h8h, hdrop20, List.take_left' h8l, leDec_leBytes, leDec_leBytes]
    have e1 : (256 : Nat) ^ 8 = 18446744073709551616 := by norm_num
    rw [e1]
    have e2 : authorId / 18446744073709551616 % 18446744073709551616 %
        18446744073709551616 = authorId / 18446744073709551616 := by omega
    have e3 : authorId % 18446744073709551616 % 18446744073709551616 =
        authorId % 18446744073709551616 := by omega
    rw [e2, e3, shiftLeft_lor_eq_add 64 _ _ (by
      have e4 : (2 : Nat) ^ 64 = 18446744073709551616 := by norm_num
      rw [e4]
      omega)]
    have e4 : (2 : Nat) ^ 64 = 18446744073709551616 := by norm_num
    rw [e4]
    omega
  have e_flags : (bs.drop 28).headD 0 = flags % 256 := by
    rw [hdrop28]
    rfl
  rw [hrevf, e_epoch, e_page, e_user, e_flags, hbit1, hbit2, hbit3, hbit4]

/-- **C4 (counterexample).** The claim says the revision metadata record
is 21 bytes wide and lives at byte offset `R * 21`.  The source packs
`'=LLLQQB'` — 4+4+4+8+8+1 = 29 bytes — so already at `R = 1` the record
is stored at offset 29, not 21. -/
theorem C4_meta_record_counterexample :
    metaStructSize ≠ 21 ∧ 1 * metaStructSize ≠ 1 * 21 ∧ 1 * metaStructSize = 29 := by
  decide

/-- **C4 (amended).** The revision metadata record is a fixed-width
29-byte record (`'=LLLQQB'`), the record for revision id `R` is stored
at byte offset `R * 29` in the meta sidecar, and a record whose
`rev_id` field is zero is treated as an empty slot (`exists` is
`rev != 0`). -/
theorem C4_meta_record_layout (f g : File) (R epoch page authorId : Nat)
    (isip isdel minor upload : Bool)
    (hrev : R < 4294967296) (hepoch : epoch < 4294967296) (hpage : page < 4294967296)
    (hauthor : authorId < 340282366920938463463374607431768211456) :
    metaStructSize = 29 ∧
    MetaStore.write f R epoch page authorId isip isdel minor upload =
      fileWrite f (R * 29)
        (metaPack R epoch page authorId
          ((if minor then 1 else 0) + (if isip then 2 else 0) +
           (if isdel then 4 else 0) + (if upload then 8 else 0))) ∧
    (∀ fl : Nat, (metaPack R epoch page authorId fl).length = 29) ∧
    MetaStore.read (MetaStore.write f R epoch page authorId isip isdel minor upload) R =
      some { rev := R, epoch := epoch, page := page, user := authorId,
             minor := minor, isip := isip, isdel := isdel, upload := upload,
             exists' := R != 0 } ∧
    (∀ rec : MetaRec, MetaStore.read g R = some rec → rec.exists' = (rec.rev != 0)) := by
  refine ⟨rfl, rfl, fun fl => metaPack_length R epoch page authorId fl, ?_, ?_⟩
  · exact metaRead_write f R epoch page authorId isip isdel minor upload
      hrev hepoch hpage hauthor
  · intro rec h
    rw [MetaStore.read.eq_def] at h
    cases hx : fileReadExtent g (R * metaStructSize) metaStructSize with
    | none =>
      rw [hx] at h
      exact absurd h (by simp)
    | some bs =>
      rw [hx] at h
      have := Option.some.inj h
      rw [← this]

/-- Witness for the amended C4 at a concrete input. -/
theorem C4_meta_record_layout_witness :
    MetaStore.read (MetaStore.write emptyFile 1 2 3 4 false false false false) 1 =
      some ⟨1, 2, 3, 4, false, false, false, false, true⟩ :=
  (C4_meta_record_layout emptyFile emptyFile 1 2 3 4 false false false false
    (by norm_num) (by norm_num) (by norm_num) (by norm_num)).2.2.2.1

/-! ## Frame lemmas for the sidecar files (claim C9) -/

theorem utf8Decode_nil : utf8Decode [] = some [] := by rw [utf8Decode]

/-- A read whose extent lies inside the old file and is disjoint from
the written extent is unchanged by the write. -/
theorem fileReadExtent_write_disjoint_low (f : File) (off off2 n : Nat) (bs : List Nat)
    (hin : off2 + n ≤ f.size) (hd : off2 + n ≤ off ∨ off + bs.length ≤ off2) :
    fileReadExtent (fileWrite f off bs) off2 n = fileReadExtent f off2 n := by
  unfold fileReadExtent
  rw [if_pos hin, if_pos (by
    show off2 + n ≤ (fileWrite f off bs).size
    unfold fileWrite
    simp only
    omega)]
  refine congrArg some (List.map_congr_left fun k hk => ?_)
  rw [List.mem_range] at hk
  exact fileWrite_data_untouched f off bs (off2 + k) (by omega) (by omega)

/-- A read whose extent lies at or beyond the old end-of-file, is
disjoint from the written extent, but fits inside the grown file sees
only zero fill. -/
theorem fileReadExtent_write_gap (f : File) (off off2 n : Nat) (bs : List Nat)
    (hout : f.size ≤ off2) (hd : off2 + n ≤ off ∨ off + bs.length ≤ off2)
    (hfit : off2 + n ≤ max f.size (off + bs.length)) :
    fileReadExtent (fileWrite f off bs) off2 n = some (List.replicate n 0) := by
  unfold fileReadExtent
  rw [if_pos (by
    show off2 + n ≤ (fileWrite f off bs).size
    unfold fileWrite
    simp only
    omega)]
  refine congrArg some (List.ext_getElem (by simp) fun k h1 h2 => ?_)
  simp only [List.getElem_map, List.getElem_range, List.getElem_replicate]
  have hk : k < n := by simpa using h1
  exact fileWrite_data_zero f off bs (off2 + k) (by omega) (by omega)

/-- A read whose extent sticks out past even the grown file fails. -/
theorem fileReadExtent_write_none (f : File) (off off2 n : Nat) (bs : List Nat)
    (hfar : max f.size (off + bs.length) < off2 + n) :
    fileReadExtent (fileWrite f off bs) off2 n = none := by
  unfold fileReadExtent
  rw [if_neg (by
    show ¬ off2 + n ≤ (fileWrite f off bs).size
    unfold fileWrite
    simp only
    omega)]

/-- A `StringStore` slot whose extent is all zero bytes reads as the
same empty record a short read produces. -/
theorem stringRead_zero_extent (f : File) (id : Nat)
    (h : fileReadExtent f (id * stringStructSize) stringStructSize =
      some (List.replicate 260 0)) :
    StringStore.read f id = ⟨0, 0, some []⟩ := by
  rw [stringRead_of_extent f id _ h]
  have h1 : (List.replicate 260 (0 : Nat)).headD 0 = 0 := rfl
  rw [h1]
  have h2 : ((List.replicate 260 (0 : Nat)).drop 1).take 4 = List.replicate 4 0 := rfl
  rw [h2]
  have h3 : leDec (List.replicate 4 (0 : Nat)) = 0 := rfl
  rw [h3]
  have h4 : (((List.replicate 260 (0 : Nat)).drop 5).take 255).take 0 = [] := rfl
  rw [h4, utf8Decode_nil]

/-- The all-zero meta record. -/
def zeroMetaRec : MetaRec := ⟨0, 0, 0, 0, false, false, false, false, false⟩

/-- A `MetaStore` slot whose extent is all zero bytes reads as the
zero record, whose `exists` entry is `false`. -/
theorem metaRead_zero_extent (f : File) (rev : Nat)
    (h : fileReadExtent f (rev * metaStructSize) metaStructSize =
      some (List.replicate 29 0)) :
    MetaStore.read f rev = some zeroMetaRec := by
  rw [metaRead_of_extent f rev _ h]
  rfl

/-- `StringStore.read` on a short read: the empty dict (lines 233-235). -/
theorem stringRead_of_none (f : File) (id : Nat)
    (h : fileReadExtent f (id * stringStructSize) stringStructSize = none) :
    StringStore.read f id = ⟨0, 0, some []⟩ := by
  rw [StringStore.read.eq_def, h]

/-- `MetaStore.read` on a short read: `None` (lines 150-151). -/
theorem metaRead_of_none (f : File) (rev : Nat)
    (h : fileReadExtent f (rev * metaStructSize) metaStructSize = none) :
    MetaStore.read f rev = none := by
  rw [MetaStore.read.eq_def, h]

/-- **C9 (amended).** For distinct ids `i ≠ j`, on a store file whose
length is a whole number of records (true of every file the program
itself produces), a write to slot `i` touches no existing byte of slot
`j`'s extent — the extents `[id*size, id*size+size)` are disjoint — and:
a `StringStore` read of `j` is completely unchanged; a `MetaStore` read
of `j` is unchanged whenever slot `j`'s extent lay inside the file, and
otherwise can only change from "no record" (`None`) to the all-zero
record, both of which the program treats as the empty slot. -/
theorem C9_slot_independence (f g : File) (i j : Nat) (hij : i ≠ j)
    (text : List Char) (sfl : Nat)
    (epoch page authorId : Nat) (isip isdel minor upload : Bool)
    (hs : f.size % 260 = 0) (hm : g.size % 29 = 0) :
    (∀ a, j * 260 ≤ a → a < j * 260 + 260 → a < f.size →
      (StringStore.write f i text sfl).data a = f.data a) ∧
    (∀ a, j * 29 ≤ a → a < j * 29 + 29 → a < g.size →
      (MetaStore.write g i epoch page authorId isip isdel minor upload).data a = g.data a) ∧
    StringStore.read (StringStore.write f i text sfl) j = StringStore.read f j ∧
    (MetaStore.read (MetaStore.write g i epoch page authorId isip isdel minor upload) j
        = MetaStore.read g j ∨
      (MetaStore.read g j = none ∧
        MetaStore.read (MetaStore.write g i epoch page authorId isip isdel minor upload) j
          = some zeroMetaRec)) := by
  have hss : stringStructSize = 260 := rfl
  have hms : metaStructSize = 29 := rfl
  have hsplen : (stringPack (utf8Encode (writeTrim text)).length sfl
      (utf8Encode (writeTrim text))).length = 260 := by
    rw [stringPack_length, hss]
  have hmplen : (metaPack i epoch page authorId
      ((if minor then 1 else 0) + (if isip then 2 else 0) +
       (if isdel then 4 else 0) + (if upload then 8 else 0))).length = 29 := by
    rw [metaPack_length, hms]
  have hdisj260 : j * 260 + 260 ≤ i * 260 ∨ i * 260 + 260 ≤ j * 260 := by
    rcases Nat.lt_or_ge i j with h | h
    · right
      have : i + 1 ≤ j := h
      calc i * 260 + 260 = (i + 1) * 260 := by ring
        _ ≤ j * 260 := Nat.mul_le_mul_right 260 this
    · rcases Nat.lt_or_ge j i with h2 | h2
      · left
        calc j * 260 + 260 = (j + 1) * 260 := by ring
          _ ≤ i * 260 := Nat.mul_le_mul_right 260 h2
      · omega
  have hdisj29 : j * 29 + 29 ≤ i * 29 ∨ i * 29 + 29 ≤ j * 29 := by
    rcases Nat.lt_or_ge i j with h | h
    · right
      calc i * 29 + 29 = (i + 1) * 29 := by ring
        _ ≤ j * 29 := Nat.mul_le_mul_right 29 h
    · rcases Nat.lt_or_ge j i with h2 | h2
      · left
        calc j * 29 + 29 = (j + 1) * 29 := by ring
          _ ≤ i * 29 := Nat.mul_le_mul_right 29 h2
      · omega
  refine ⟨?_, ?_, ?_, ?_⟩
  · intro a h1 h2 h3
    rw [StringStore.write]
    exact fileWrite_data_untouched f (i * stringStructSize) _ a h3
      (by rw [hsplen, hss]; omega)
  · intro a h1 h2 h3
    rw [MetaStore.write]
    exact fileWrite_data_untouched g (i * metaStructSize) _ a h3
      (by rw [hmplen, hms]; omega)
  · by_cases hin : j * 260 + 260 ≤ f.size
    · have he : fileReadExtent (StringStore.write f i text sfl) (j * stringStructSize)
          stringStructSize = fileReadExtent f (j * stringStructSize) stringStructSize := by
        rw [StringStore.write]
        exact fileReadExtent_write_disjoint_low f (i * stringStructSize)
          (j * stringStructSize) stringStructSize _ (by rw [hss]; omega)
          (by rw [hsplen, hss]; omega)
      rw [StringStore.read.eq_def, StringStore.read.eq_def, he]
    · obtain ⟨m, hm'⟩ : 260 ∣ f.size := Nat.dvd_of_mod_eq_zero hs
      have hout : f.size ≤ j * 260 := by
        rcases Nat.lt_or_ge m (j + 1) with h | h
        · rw [hm']
          calc 260 * m ≤ 260 * j := Nat.mul_le_mul_left 260 (by omega)
            _ = j * 260 := by ring
        · exfalso
          apply hin
          rw [hm']
          calc j * 260 + 260 = (j + 1) * 260 := by ring
            _ ≤ m * 260 := Nat.mul_le_mul_right 260 h
            _ = 260 * m := by ring
      have hbefore : StringStore.read f j = ⟨0, 0, some []⟩ := by
        apply stringRead_of_none
        unfold fileReadExtent
        rw [if_neg (by rw [hss]; omega)]
      rw [hbefore]
      by_cases hfit : j * 260 + 260 ≤
          max f.size (i * 260 + 260)
      · apply stringRead_zero_extent
        rw [StringStore.write]
        have := fileReadExtent_write_gap f (i * stringStructSize) (j * stringStructSize)
          stringStructSize _ (by rw [hss]; omega) (by rw [hsplen, hss]; omega)
          (by rw [hsplen, hss]; omega)
        rw [hss] at this ⊢
        exact this
      · apply stringRead_of_none
        rw [StringStore.write]
        exact fileReadExtent_write_none f (i * stringStructSize) (j * stringStructSize)
          stringStructSize _ (by rw [hsplen, hss]; omega)
  · by_cases hin : j * 29 + 29 ≤ g.size
    · left
      have he : fileReadExtent
          (MetaStore.write g i epoch page authorId isip isdel minor upload)
          (j * metaStructSize) metaStructSize =
          fileReadExtent g (j * metaStructSize) metaStructSize := by
        rw [MetaStore.write]
        exact fileReadExtent_write_disjoint_low g (i * metaStructSize)
          (j * metaStructSize) metaStructSize _ (by rw [hms]; omega)
          (by rw [hmplen, hms]; omega)
      rw [MetaStore.read.eq_def, MetaStore.read.eq_def, he]
    · obtain ⟨m, hm'⟩ : 29 ∣ g.size := Nat.dvd_of_mod_eq_zero hm
      have hout : g.size ≤ j * 29 := by
        rcases Nat.lt_or_ge m (j + 1) with h | h
        · rw [hm']
          calc 29 * m ≤ 29 * j := Nat.mul_le_mul_left 29 (by omega)
            _ = j * 29 := by ring
        · exfalso
          apply hin
          rw [hm']
          calc j * 29 + 29 = (j + 1) * 29 := by ring
            _ ≤ m * 29 := Nat.mul_le_mul_right 29 h
            _ = 29 * m := by ring
      have hbefore : MetaStore.read g j = none := by
        apply metaRead_of_none
        unfold fileReadExtent
        rw [if_neg (by rw [hms]; omega)]
      by_cases hfit : j * 29 + 29 ≤ max g.size (i * 29 + 29)
      · right
        refine ⟨hbefore, ?_⟩
        apply metaRead_zero_extent
        rw [MetaStore.write]
        have := fileReadExtent_write_gap g (i * metaStructSize) (j * metaStructSize)
          metaStructSize _ (by rw [hms]; omega) (by rw [hmplen, hms]; omega)
          (by rw [hmplen, hms]; omega)
        rw [hms] at this ⊢
        exact this
      · left
        rw [hbefore]
        apply metaRead_of_none
        rw [MetaStore.write]
        exact fileReadExtent_write_none g (i * metaStructSize) (j * metaStructSize)
          metaStructSize _ (by rw [hmplen, hms]; omega)

set_option maxRecDepth 10000 in
/-- **C9 (counterexample).** As stated, slot independence fails for the
`MetaStore`: on a fresh empty file, writing revision 1 extends the file
past slot 0, so the record readable at id 0 changes from `None` (short
read) to the all-zero record. -/
theorem C9_slot_independence_counterexample :
    MetaStore.read (MetaStore.write emptyFile 1 2 3 4 false false false false) 0 ≠
      MetaStore.read emptyFile 0 := by
  decide

/-- Witness for the amended C9 at a concrete input. -/
theorem C9_slot_independence_witness :
    StringStore.read (StringStore.write emptyFile 1 [] 1) 0 = StringStore.read emptyFile 0 :=
  (C9_slot_independence emptyFile emptyFile 1 0 (by decide) [] 1 2 3 4
    false false false false (by decide) (by decide)).2.2.1

/-! ## Python dicts as association lists

`d[k] = v` prepends a binding that shadows older ones; `d.get(k)` /
`k in d` find the newest binding.  This is observationally the Python
dict the source uses for `idtons` / `nstoid` (lines 611-615, 844-845). -/

def dget {κ ν : Type} [DecidableEq κ] : List (κ × ν) → κ → Option ν
  | [], _ => none
  | (k', v) :: rest, k => if k = k' then some v else dget rest k

def dset {κ ν : Type} (d : List (κ × ν)) (k : κ) (v : ν) : List (κ × ν) :=
  (k, v) :: d

/-! ## Namespace capture (claim C8, levitation.py lines 611-615) -/

/-- `BlobWriter.process_captured_namespace` over a list of captured
`<namespace key="k">name</namespace>` elements, in document order:
each does `idtons[key] = name; nstoid[name] = key`. -/
def processNamespaces : List (Int × List Char) → List (Int × List Char) →
    List (List Char × Int) → List (Int × List Char) × List (List Char × Int)
  | [], idtons, nstoid => (idtons, nstoid)
  | (k, n) :: rest, idtons, nstoid => processNamespaces rest (dset idtons k n) (dset nstoid n k)

theorem processNamespaces_inv (es : List (Int × List Char)) :
    ∀ (idtons : List (Int × List Char)) (nstoid : List (List Char × Int)),
    (∀ k nm, dget idtons k = some nm → dget nstoid nm = some k) →
    (∀ k nm, dget idtons k = some nm → nm ∉ es.map Prod.snd) →
    (es.map Prod.snd).Nodup →
    ∀ k nm, dget (processNamespaces es idtons nstoid).1 k = some nm →
      dget (processNamespaces es idtons nstoid).2 nm = some k := by
  induction es with
  | nil =>
    intro idtons nstoid h1 _ _ k nm hk
    exact h1 k nm hk
  | cons e rest ih =>
    intro idtons nstoid h1 h2 h3 k nm
    obtain ⟨k0, n0⟩ := e
    simp only [List.map_cons, List.nodup_cons] at h3
    apply ih (dset idtons k0 n0) (dset nstoid n0 k0)
    · intro k' nm' hget
      rw [dset] at hget ⊢
      rw [dget] at hget
      split at hget
      · next heq =>
        obtain rfl : nm' = n0 := by
          simpa using hget.symm
        rw [dget, if_pos rfl]
        obtain rfl : k' = k0 := heq
        rfl
      · next hne =>
        have hnm : nm' ≠ n0 := by
          intro hc
          exact (h2 k' nm' hget) (by simp [hc])
        rw [dget, if_neg hnm]
        exact h1 k' nm' hget
    · intro k' nm' hget
      rw [dset, dget] at hget
      split at hget
      · obtain rfl : nm' = n0 := by
          simpa using hget.symm
        exact h3.1
      · intro hmem
        exact (h2 k' nm' hget) (by simp [hmem])
    · exact h3.2

/-- **C8 (counterexample).** As stated, the bijection fails when two
captured namespaces carry the same name: after processing
`[(1, "A"), (2, "A")]` from empty maps, `id_to_ns[1] = "A"` but
`ns_to_id["A"] = 2 ≠ 1`. -/
theorem C8_namespace_bijection_counterexample :
    dget (processNamespaces [(1, [Char.ofNat 65]), (2, [Char.ofNat 65])] [] []).1 1 =
      some [Char.ofNat 65] ∧
    ¬ dget (processNamespaces [(1, [Char.ofNat 65]), (2, [Char.ofNat 65])] [] []).2
      [Char.ofNat 65] = some 1 := by
  decide

/-- **C8 (amended).** After Pass 1 has processed the `<siteinfo>`
section, provided the captured namespace names are pairwise distinct
(as they are in a well-formed MediaWiki dump), `ns_to_id` inverts
`id_to_ns`: for every key `k` recorded in `id_to_ns`,
`ns_to_id[id_to_ns[k]] = k`. -/
theorem C8_namespace_bijection (es : List (Int × List Char))
    (h : (es.map Prod.snd).Nodup) :
    ∀ k nm, dget (processNamespaces es [] []).1 k = some nm →
      dget (processNamespaces es [] []).2 nm = some k := by
  apply processNamespaces_inv es [] []
  · intro k nm hk
    rw [dget] at hk
    exact absurd hk (by simp)
  · intro k nm hk
    rw [dget] at hk
    exact absurd hk (by simp)
  · exact h

/-- Witness for the amended C8 at a concrete input. -/
theorem C8_namespace_bijection_witness :
    dget (processNamespaces [(0, []), (6, [Char.ofNat 70])] [] []).2 [Char.ofNat 70] =
      some 6 :=
  C8_namespace_bijection [(0, []), (6, [Char.ofNat 70])] (by decide) 6 [Char.ofNat 70]
    (by decide)

/-! ## Page.setTitle (claim C6, levitation.py lines 331-340) -/

/-- Python `t.split(':', 1)`: the part before the first `':'`, and the
part after it when one exists. -/
def splitColon1 : List Char → List Char × Option (List Char)
  | [] => ([], none)
  | c :: rest =>
    if c = ':' then ([], some rest)
    else ((splitColon1 rest).1.cons c, (splitColon1 rest).2)

theorem splitColon1_some (t pre suf : List Char) (h : splitColon1 t = (pre, some suf)) :
    t = pre ++ ':' :: suf ∧ ':' ∉ pre := by
  induction t generalizing pre with
  | nil => simp [splitColon1] at h
  | cons c rest ih =>
    rw [splitColon1] at h
    split at h
    · next hc =>
      obtain ⟨rfl, rfl⟩ : pre = [] ∧ suf = rest := by
        constructor <;> simp_all
      subst hc
      simp
    · next hc =>
      obtain ⟨hpre, hsuf⟩ : c :: (splitColon1 rest).1 = pre ∧ (splitColon1 rest).2 = some suf := by
        constructor <;> simp_all
      obtain ⟨h1, h2⟩ := ih (splitColon1 rest).1 (by rw [← hsuf])
      subst hpre
      refine ⟨?_, ?_⟩
      · rw [List.cons_append, ← h1]
      · simp only [List.mem_cons]
        rintro (hc2 | hc2)
        · exact hc hc2.symm
        · exact h2 hc2

theorem splitColon1_none (t : List Char) (h : (splitColon1 t).2 = none) :
    (splitColon1 t).1 = t ∧ ':' ∉ t := by
  induction t with
  | nil => simp [splitColon1]
  | cons c rest ih =>
    rw [splitColon1] at h ⊢
    split at h
    · simp at h
    · next hc =>
      simp only at h ⊢
      obtain ⟨h1, h2⟩ := ih h
      refine ⟨?_, ?_⟩
      · rw [if_neg hc]
        simp [h1]
      · simp only [List.mem_cons]
        rintro (hc2 | hc2)
        · exact hc hc2.symm
        · exact h2 hc2

/-- The live `Page` fields (levitation.py lines 324-329). -/
structure PageState where
  fulltitle : List Char
  title : List Char
  nsid : Int
  id : Int
deriving DecidableEq, Repr

/-- `Page.setTitle` (lines 331-340): split on the first `':'`; when a
`':'` exists and the part before it is a key of `nstoid`, take that
namespace and the part after; otherwise the main namespace
`nstoid['']` and the full title.  `none` models the `KeyError` raised
when the main namespace is absent from `nstoid`. -/
def Page.setTitle (nstoid : List (List Char × Int)) (p : PageState) (t : List Char) :
    Option PageState :=
  match (splitColon1 t).2 with
  | some suf =>
    match dget nstoid (splitColon1 t).1 with
    | some k => some { p with fulltitle := t, nsid := k, title := suf }
    | none =>
      match dget nstoid [] with
      | some m => some { p with fulltitle := t, nsid := m, title := t }
      | none => none
  | none =>
    match dget nstoid [] with
    | some m => some { p with fulltitle := t, nsid := m, title := t }
    | none => none

/-- **C6.** Title routing: `setTitle(T)` splits `T` on the first `':'`.
If a `':'` is present and the part before it is a key of the
namespace-to-id map, the page's namespace id becomes that key's value
and the page title becomes the part after the `':'`; otherwise the
namespace id becomes the id the empty string maps to (the main
namespace) and the title remains `T`. -/
theorem C6_title_routing (nstoid : List (List Char × Int)) (p : PageState)
    (T pre suf : List Char) (k m : Int) :
    (splitColon1 T = (pre, some suf) → dget nstoid pre = some k →
      Page.setTitle nstoid p T =
        some { p with fulltitle := T, nsid := k, title := suf } ∧
      T = pre ++ ':' :: suf ∧ ':' ∉ pre) ∧
    (splitColon1 T = (pre, some suf) → dget nstoid pre = none →
      dget nstoid [] = some m →
      Page.setTitle nstoid p T =
        some { p with fulltitle := T, nsid := m, title := T }) ∧
    ((splitColon1 T).2 = none → dget nstoid [] = some m →
      Page.setTitle nstoid p T =
        some { p with fulltitle := T, nsid := m, title := T } ∧ ':' ∉ T) := by
  refine ⟨?_, ?_, ?_⟩
  · intro hsplit hget
    obtain ⟨h1, h2⟩ := splitColon1_some T pre suf hsplit
    refine ⟨?_, h1, h2⟩
    rw [Page.setTitle.eq_def, hsplit]
    simp only
    rw [hget]
  · intro hsplit hget hmain
    rw [Page.setTitle.eq_def, hsplit]
    simp only
    rw [hget, hmain]
  · intro hsplit hmain
    obtain ⟨-, h2⟩ := splitColon1_none T hsplit
    refine ⟨?_, h2⟩
    rw [Page.setTitle.eq_def, hsplit, hmain]

/-- Witness for C6 at a concrete input (title `"T:x"` with namespace
`"T"` mapped to 10). -/
theorem C6_title_routing_witness :
    Page.setTitle [([], 0), ([Char.ofNat 84], 10)] ⟨[], [], 0, 0⟩
        [Char.ofNat 84, Char.ofNat 58, Char.ofNat 120] =
      some ⟨[Char.ofNat 84, Char.ofNat 58, Char.ofNat 120], [Char.ofNat 120], 10, 0⟩ ∧
    [Char.ofNat 84, Char.ofNat 58, Char.ofNat 120] =
      [Char.ofNat 84] ++ ':' :: [Char.ofNat 120] ∧ ':' ∉ [Char.ofNat 84] :=
  (C6_title_routing [([], 0), ([Char.ofNat 84], 10)] ⟨[], [], 0, 0⟩
    [Char.ofNat 84, Char.ofNat 58, Char.ofNat 120] [Char.ofNat 84] [Char.ofNat 120] 10 0).1
    (by decide) (by decide)

/-! ## Revision construction (claim C10, levitation.py lines 272-321) -/

/-- A child element of a captured `<revision>` / `<upload>` subtree, as
dispatched by tag name in the loop at lines 287-304. -/
inductive RevChild
  | idc (n : Nat)
  | timestamp (t : Nat)
  | contributor (userId : Nat) (isip isdel : Bool)
  | minor
  | comment (c : List Char)
  | text (c : List Char)
  | contents (c : List Nat)
deriving DecidableEq, Repr

/-- The per-revision fields the child loop fills in.  `timestamp` is
abstracted to the parsed epoch; `contents` holds raw bytes (UTF-8 of
`<text>`, base64-decoded `<contents>`). -/
structure RevState where
  id : Nat
  minor : Bool
  timestamp : Option Nat
  comment : Option (List Char)
  contents : Option (List Nat)
deriving DecidableEq, Repr

/-- One iteration of the child loop (lines 287-304).  A `contributor`
child builds the `User` (and may write the user sidecar) but touches
none of these fields. -/
def applyRevChild (st : RevState) : RevChild → RevState
  | .idc n => { st with id := n }
  | .timestamp t => { st with timestamp := some t }
  | .contributor _ _ _ => st
  | .minor => { st with minor := true }
  | .comment c => { st with comment := some c }
  | .text c => { st with contents := some (utf8Encode c) }
  | .contents c => { st with contents := some c }

/-- `Revision.__init__` up to the store/blob writes (lines 272-304):
for an upload the id is pre-seeded with `max_upload + 1` and
`max_upload` is bumped — before any child is read — else the id starts
at 0; then the children are processed in document order.  Returns the
final fields and the new `max_upload`. -/
def revisionInit (upload : Bool) (maxUpload : Nat) (children : List RevChild) :
    RevState × Nat :=
  (children.foldl applyRevChild
    { id := if upload then maxUpload + 1 else 0, minor := false,
      timestamp := none, comment := none, contents := none },
   if upload then maxUpload + 1 else maxUpload)

/-- The id carried by an `<id>` child. -/
def idChildValue : RevChild → Option Nat
  | RevChild.idc k => some k
  | RevChild.timestamp _ => none
  | RevChild.contributor _ _ _ => none
  | RevChild.minor => none
  | RevChild.comment _ => none
  | RevChild.text _ => none
  | RevChild.contents _ => none

/-- The value of the last `<id>` child, if any. -/
def lastExplicitId : List RevChild → Option Nat
  | [] => none
  | c :: rest =>
    match lastExplicitId rest with
    | some n => some n
    | none => idChildValue c

theorem applyRevChild_id_of_ne (st : RevState) (c : RevChild)
    (h : ∀ n, c ≠ RevChild.idc n) : (applyRevChild st c).id = st.id := by
  cases c with
  | idc n => exact absurd rfl (h n)
  | timestamp t => rfl
  | contributor u a b => rfl
  | minor => rfl
  | comment c => rfl
  | text c => rfl
  | contents c => rfl

theorem foldl_applyRevChild_id (cs : List RevChild) :
    ∀ st : RevState, (cs.foldl applyRevChild st).id =
      match lastExplicitId cs with
      | some n => n
      | none => st.id := by
  induction cs with
  | nil => intro st; rfl
  | cons c rest ih =>
    intro st
    rw [List.foldl_cons, ih, lastExplicitId]
    cases hr : lastExplicitId rest with
    | some n => rfl
    | none =>
      simp only
      cases c with
      | idc k => rfl
      | timestamp t => rfl
      | contributor u a b => rfl
      | minor => rfl
      | comment c => rfl
      | text c => rfl
      | contents c => rfl

theorem idChildValue_none_of_no_id (c : RevChild) (h : ∀ n, c ≠ RevChild.idc n) :
    idChildValue c = none := by
  cases c with
  | idc n => exact absurd rfl (h n)
  | timestamp t => rfl
  | contributor u a b => rfl
  | minor => rfl
  | comment c => rfl
  | text c => rfl
  | contents c => rfl

theorem lastExplicitId_none_of_no_id (cs : List RevChild)
    (h : ∀ c ∈ cs, ∀ n, c ≠ RevChild.idc n) : lastExplicitId cs = none := by
  induction cs with
  | nil => rfl
  | cons c rest ih =>
    rw [lastExplicitId, ih (fun c' hc' => h c' (by simp [hc']))]
    exact idChildValue_none_of_no_id c (fun n => h c (by simp) n)

/-- **C10.** Processing any `<upload>` element increments the stored
`max_upload` counter by exactly one — even when the upload carries an
explicit `<id>` child — and the synthesized value `max_upload + 1` is
used as the upload's id only when no `<id>` child is present (an
explicit `<id>` overrides it, leaving gaps in the synthesized
sequence). -/
theorem C10_upload_counter (cs : List RevChild) (m : Nat) :
    (revisionInit true m cs).2 = m + 1 ∧
    ((∀ c ∈ cs, ∀ n, c ≠ RevChild.idc n) → (revisionInit true m cs).1.id = m + 1) ∧
    (∀ n, lastExplicitId cs = some n → (revisionInit true m cs).1.id = n) := by
  refine ⟨rfl, ?_, ?_⟩
  · intro h
    show (cs.foldl applyRevChild _).id = m + 1
    rw [foldl_applyRevChild_id, lastExplicitId_none_of_no_id cs h]
    rfl
  · intro n hn
    show (cs.foldl applyRevChild _).id = n
    rw [foldl_applyRevChild_id, hn]

/-- Witness for C10 at a concrete input: an upload with an explicit
`<id>7</id>` child still bumps `max_upload` from 3 to 4, but uses 7. -/
theorem C10_upload_counter_witness :
    (revisionInit true 3 [RevChild.timestamp 5, RevChild.idc 7]).2 = 3 + 1 ∧
    (revisionInit true 3 [RevChild.timestamp 5, RevChild.idc 7]).1.id = 7 :=
  ⟨(C10_upload_counter [RevChild.timestamp 5, RevChild.idc 7] 3).1,
   (C10_upload_counter [RevChild.timestamp 5, RevChild.idc 7] 3).2.2 7 (by decide)⟩

/-! ## Pass-1 page loop and cancellation (claim C7) -/

/-- The `BlobWriter` state visible to cancellation: `imported` pages,
the `canceled` flag, and (as `processed`) the side effects of the pages
fully handled so far — each page's blobs and sidecar writes happen
while its subtrees are captured, before its `</page>`. -/
structure Pass1State (α : Type) where
  imported : Nat
  canceled : Bool
  processed : List α
deriving DecidableEq, Repr

/-- The page loop of Pass 1.  For each `<page>` the page is processed
(its revisions emitted and sidecars written), then `end_page` (lines
632-640) runs: `imported += 1`, and when `IMPORT_MAX > 0` and
`imported >= IMPORT_MAX` it sets `canceled` and raises
`CancelException`.  The exception carries no data but all mutations so
far persist, so the `.error` value is the state at raise time. -/
def runPages (importMax : Int) {α : Type} :
    List α → Pass1State α → Except (Pass1State α) (Pass1State α)
  | [], st => .ok st
  | p :: ps, st =>
    if importMax > 0 ∧ (((st.imported + 1 : Nat) : Int) ≥ importMax) then
      .error ⟨st.imported + 1, true, st.processed ++ [p]⟩
    else runPages importMax ps ⟨st.imported + 1, st.canceled, st.processed ++ [p]⟩

/-- `BlobWriter.parse` (lines 573-579): run the loop from a fresh
writer (`imported = 0`, `canceled = False`); catch `CancelException`
and re-raise it (`none`) only when `canceled` was not set. -/
def blobParse (importMax : Int) {α : Type} (pages : List α) : Option (Pass1State α) :=
  match runPages importMax pages ⟨0, false, []⟩ with
  | .ok st => some st
  | .error st => if st.canceled then some st else none

theorem runPages_cancels {α : Type} (N : Nat) (hN : 0 < N) :
    ∀ (ps : List α) (st : Pass1State α), st.imported < N →
      N - st.imported ≤ ps.length →
      runPages (N : Int) ps st =
        .error ⟨N, true, st.processed ++ ps.take (N - st.imported)⟩ := by
  intro ps
  induction ps with
  | nil =>
    intro st h1 h2
    simp at h2
    omega
  | cons p rest ih =>
    intro st h1 h2
    rw [runPages]
    by_cases hc : st.imported + 1 = N
    · rw [if_pos (by constructor <;> [exact_mod_cast hN; exact_mod_cast le_of_eq hc.symm])]
      have ht : N - st.imported = 1 := by omega
      rw [hc, ht, List.take_succ_cons, List.take_zero]
    · rw [if_neg (by
        rintro ⟨-, hge⟩
        have : N ≤ st.imported + 1 := by exact_mod_cast hge
        omega)]
      have := ih ⟨st.imported + 1, st.canceled, st.processed ++ [p]⟩
        (show st.imported + 1 < N by omega)
        (show N - (st.imported + 1) ≤ rest.length by
          simp only [List.length_cons] at h2
          omega)
      rw [this]
      simp only
      have ht : N - st.imported = (N - (st.imported + 1)) + 1 := by omega
      rw [ht, List.take_succ_cons, List.append_assoc]
      rfl

/-- **C7.** Cancellation cap: when `IMPORT_MAX = N > 0` and the dump
contains more than `N` pages, Pass 1 completes exactly `N` pages — the
cancellation is raised at the `N`-th `</page>`, after that page's
revisions and sidecar writes — the `CancelException` is caught
silently in `parse` (the run yields a final state, not an error), and
the processed pages are exactly the first `N`. -/
theorem C7_cancellation_cap {α : Type} (N : Nat) (pages : List α)
    (h1 : 0 < N) (h2 : N < pages.length) :
    runPages (N : Int) pages ⟨0, false, []⟩ = .error ⟨N, true, pages.take N⟩ ∧
    blobParse (N : Int) pages = some ⟨N, true, pages.take N⟩ := by
  have hrun := runPages_cancels N h1 pages ⟨0, false, []⟩ (by simpa using h1)
    (by simp only; omega)
  simp only [Nat.sub_zero] at hrun
  refine ⟨by simpa using hrun, ?_⟩
  rw [blobParse, hrun]
  rfl

/-- Witness for C7 at a concrete input: `--max 1` on a two-page dump. -/
theorem C7_cancellation_cap_witness :
    blobParse ((1 : Nat) : Int) [10, 20] = some ⟨1, true, [10]⟩ :=
  (C7_cancellation_cap 1 [(10 : Nat), 20] (by decide) (by decide)).2

/-! ## Committer (claim C3, levitation.py lines 711-799) -/

/-- The mark plumbing of one emitted commit: its own `mark` line, the
optional `from` line, and the blob mark in its `M 100644` line.  The
author, message, path and time fields of the emitted text are functions
of the info record and the stores and play no part in the chaining. -/
structure CommitOut where
  mark : Nat
  fromMark : Option Nat
  blobMark : Nat
deriving DecidableEq, Repr

/-- The loop body of `Committer.work` (lines 743-799) from the counter
value `n` of the next commit: `fromline` is `commit_mark(commit_num-1)`
exactly when `commit_num > 0`, and the blob mark is chosen upload- or
revision-class by `info['upload']` (lines 760, 766, 790). -/
def commitsFrom : Nat → List MetaRec → List CommitOut
  | _, [] => []
  | n, info :: rest =>
    { mark := commit_mark n,
      fromMark := if n > 0 then some (commit_mark (n - 1)) else none,
      blobMark := if info.upload then upload_mark info.rev else revision_mark info.rev }
      :: commitsFrom (n + 1) rest

/-- `Committer.work` over the fully assembled info sequence (after the
`gen()` scan and the optional `--sort`): `commit_num` starts at `-1`
and is incremented at the top of the loop, so the first emitted commit
has counter 0. -/
def committerWork (infos : List MetaRec) : List CommitOut := commitsFrom 0 infos

theorem commitsFrom_length (l : List MetaRec) : ∀ n, (commitsFrom n l).length = l.length := by
  induction l with
  | nil => intro n; rfl
  | cons info rest ih =>
    intro n
    rw [commitsFrom, List.length_cons, List.length_cons, ih]

theorem commitsFrom_out (l : List MetaRec) : ∀ n i, i < l.length →
    ∃ c : CommitOut, (commitsFrom n l)[i]? = some c ∧
      c.mark = commit_mark (n + i) ∧
      c.fromMark = (if n + i > 0 then some (commit_mark (n + i - 1)) else none) := by
  induction l with
  | nil =>
    intro n i h
    simp at h
  | cons info rest ih =>
    intro n i h
    cases i with
    | zero =>
      refine ⟨{ mark := commit_mark n,
                fromMark := if n > 0 then some (commit_mark (n - 1)) else none,
                blobMark := if info.upload then upload_mark info.rev
                  else revision_mark info.rev }, ?_, rfl, rfl⟩
      rw [commitsFrom]
      simp
    | succ i =>
      obtain ⟨c, hc, hm, hf⟩ := ih (n + 1) i (by simpa using h)
      refine ⟨c, ?_, ?_, ?_⟩
      · rw [commitsFrom]
        simpa using hc
      · rw [hm]
        congr 1
        omega
      · rw [hf, if_pos (by omega), if_pos (by omega)]
        congr 2
        omega

/-- **C3.** Commit chain linearity: in the Pass-2 output the first
emitted commit (counter `C = 0`) has no `from` line, and the commit
with counter `C > 0` has exactly one `from` line (the `fromMark` field,
printed as a single line when present), whose mark is the commit mark
`2 + 3*(C-1)` of the immediately preceding commit — whose own mark is
`2 + 3*C`. -/
theorem C3_commit_chain (infos : List MetaRec) (i : Nat)
    (h : i < (committerWork infos).length) :
    (committerWork infos)[i].mark = 2 + 3 * i ∧
    (committerWork infos)[i].fromMark =
      (if i = 0 then none else some (2 + 3 * (i - 1))) := by
  have hlen : i < infos.length := by
    rw [committerWork, commitsFrom_length] at h
    exact h
  obtain ⟨c, hc, hm, hf⟩ := commitsFrom_out infos 0 i hlen
  have hc' : (committerWork infos)[i]? = some c := hc
  have hg : (committerWork infos)[i] = c := by
    have := List.getElem?_eq_getElem h
    rw [this] at hc'
    exact Option.some.inj hc'
  rw [hg]
  constructor
  · rw [hm]
    show 1 + 1 + 3 * (0 + i) = 2 + 3 * i
    omega
  · rw [hf]
    by_cases hi : i = 0
    · simp [hi]
    · rw [if_pos (by omega), if_neg hi]
      congr 1
      show 1 + 1 + 3 * (0 + i - 1) = 2 + 3 * (i - 1)
      omega

/-- Witness for C3 at a concrete input: two commits, the second chained
to the first via `from :2`. -/
theorem C3_commit_chain_witness :
    ∃ h : 1 < (committerWork [zeroMetaRec, zeroMetaRec]).length,
      (committerWork [zeroMetaRec, zeroMetaRec])[1].mark = 2 + 3 * 1 ∧
      (committerWork [zeroMetaRec, zeroMetaRec])[1].fromMark =
        (if 1 = 0 then none else some (2 + 3 * (1 - 1))) :=
  ⟨by decide, C3_commit_chain [zeroMetaRec, zeroMetaRec] 1 (by decide)⟩

/-! ## create_path (claim C5, levitation.py lines 656-709) -/

/-- `sanitize` (line 656-657): replace `/` by `U+001C`. -/
def sanitize (s : List Char) : List Char :=
  s.map fun c => if c = '/' then Char.ofNat 28 else c

def digitChar (n : Nat) : Char := Char.ofNat (48 + n)

/-- Decimal digits of `n` (`'%d' % n` for non-negative `n`), with fuel
so that it evaluates structurally. -/
def natDecAux : Nat → Nat → List Char
  | 0, _ => []
  | fuel + 1, n =>
    if n < 10 then [digitChar n]
    else natDecAux fuel (n / 10) ++ [digitChar (n % 10)]

def natDec (n : Nat) : List Char := natDecAux (n + 1) n

/-- `'%d' % i` for an `int`. -/
def intDec (i : Int) : List Char :=
  if i < 0 then '-' :: natDec i.natAbs else natDec i.toNat

/-- Lowercase hex of one byte, as `codecs.encode(-, 'hex')` emits. -/
def hexDigit (d : Nat) : Char :=
  if d < 10 then Char.ofNat (48 + d) else Char.ofNat (87 + d)

def hexByte (b : Nat) : List Char := [hexDigit (b / 16), hexDigit (b % 16)]

def hexEncode (bs : List Nat) : List Char := (bs.map hexByte).flatten

/-- `os.path.join(a, b)` on POSIX, two arguments. -/
def pathJoin (a b : List Char) : List Char :=
  if b.head? = some '/' then b
  else if a = [] ∨ a.getLast? = some '/' then a ++ b
  else a ++ '/' :: b

/-- Python `path.split('/')`. -/
def splitSep : List Char → List (List Char)
  | [] => [[]]
  | c :: rest =>
    if c = '/' then [] :: splitSep rest
    else ((splitSep rest).headD []).cons c :: (splitSep rest).tail

/-- One step of `posixpath.normpath`'s component loop. -/
def normStep (initialSlashes : Nat) (acc : List (List Char)) (comp : List Char) :
    List (List Char) :=
  if comp = [] ∨ comp = ['.'] then acc
  else if comp ≠ ['.', '.'] ∨ (initialSlashes = 0 ∧ acc = []) ∨
      acc.getLast? = some ['.', '.'] then acc ++ [comp]
  else acc.dropLast

/-- `'/'.join(comps)`. -/
def joinSep : List (List Char) → List Char
  | [] => []
  | [c] => c
  | c :: rest => c ++ '/' :: joinSep rest

/-- `posixpath.normpath`. -/
def normpath (p : List Char) : List Char :=
  if p = [] then ['.']
  else
    (fun isl =>
      (fun joined => if joined = [] ∧ isl = 0 then ['.'] else joined)
        (List.replicate isl '/' ++
          joinSep ((splitSep p).foldl (normStep isl) [])))
    (if p.head? = some '/' then
      (if p.take 2 = ['/', '/'] ∧ p.take 3 ≠ ['/', '/', '/'] then 2 else 1)
     else 0)

inductive DirStruct
  | levitation
  | github
deriving DecidableEq, Repr

/-- `create_path` (lines 660-709).  Note: in the `levitation` branch
the source sets `extension = '' if upload else 'mediawiki'` (line 694)
— no dot — although the function's own docstring (line 668) says "The
extension is .mediawiki for pages".  `none` models the `KeyError` when
`idtons` lacks the namespace (and the github branch looks the name up
only where the source does). -/
def create_path (dirstruct : DirStruct) (deepness : Nat)
    (idtons : List (Int × List Char)) (ns : Int) (title : List Char) (upload : Bool) :
    Option (List Char) :=
  match dirstruct with
  | .levitation =>
    match dget idtons ns with
    | none => none
    | some nsname =>
      some (normpath (pathJoin
        ((title.take deepness).foldl
          (fun path c => pathJoin path (hexEncode (utf8Bytes c)))
          (sanitize (intDec ns ++ '-' :: nsname)))
        (sanitize title ++
          sanitize (if upload then [] else ['m', 'e', 'd', 'i', 'a', 'w', 'i', 'k', 'i']))))
  | .github =>
    (fun dashify =>
      if upload then
        (dget idtons ns).map fun nsname => normpath (dashify (nsname ++ ':' :: title))
      else if ns = 0 then
        some (normpath (dashify (title ++
          '.' :: ['m', 'e', 'd', 'i', 'a', 'w', 'i', 'k', 'i'])))
      else if ns = 6 then
        (dget idtons ns).map fun nsname => normpath (dashify (':' :: nsname ++ ':' :: title ++
          '.' :: ['m', 'e', 'd', 'i', 'a', 'w', 'i', 'k', 'i']))
      else
        (dget idtons ns).map fun nsname => normpath (dashify (nsname ++ ':' :: title ++
          '.' :: ['m', 'e', 'd', 'i', 'a', 'w', 'i', 'k', 'i'])))
    (fun s => s.map fun c => if c = '/' ∨ c = ' ' then '-' else c)

/-- **C5 (code bug).** Under the `levitation` policy the claim (and the
function's own docstring) promise the suffix `.mediawiki` for
non-upload revisions, but the code appends `'mediawiki'` with no dot:
page `"Foo"` in namespace 0 (named `""`) with `DEEPNESS = 1` yields the
path `0-`, `46`, `Foomediawiki` (slash-joined), which does not end in
`.mediawiki`. -/
theorem C5_path_missing_dot_extension :
    create_path DirStruct.levitation 1 [(0, [])] 0 ['F', 'o', 'o'] false =
      some ['0', '-', '/', '4', '6', '/',
            'F', 'o', 'o', 'm', 'e', 'd', 'i', 'a', 'w', 'i', 'k', 'i'] ∧
    create_path DirStruct.levitation 1 [(0, [])] 0 ['F', 'o', 'o'] false ≠
      some ['0', '-', '/', '4', '6', '/',
            'F', 'o', 'o', '.', 'm', 'e', 'd', 'i', 'a', 'w', 'i', 'k', 'i'] := by
  decide
